import Mathlib

/-!
Shallow embedding of the gitfs repository (fs.go and the git client file)
and proofs about its specification claims.

The embedding models:
  * the status-code enumeration and the status-reconciliation callback of
    `Git.GetStatus`;
  * the recursive working-tree walk `traverseDir` over a pure directory
    tree (billy filesystems are modelled as finite labelled trees);
  * the configuration validation `Config.Valid`;
  * the metadata-directory probe `buildDotStore`;
  * the `Git` handle with its `pulled` flag; the outcomes of the underlying
    go-git library calls (worktree pull/add/commit, repository push, the
    reset sequence) are oracle fields of the handle state, since the
    library itself is an external collaborator;
  * the `GitFs` facade with its nil-able `git` pointer, `Sync`, `Pull`,
    `Chroot` and file-operation forwarding.
-/

namespace Gitfs

/-- Error wrapping in the style of errors.Wrapf(err, msg): the message is
prepended to the wrapped error text. -/
def wrap (msg err : String) : String := msg ++ ": " ++ err

/-- StatusCode is a byte-sized code holding one printable character
(`type StatusCode byte` in the source). -/
abbrev StatusCode := Char

def Unmodified : StatusCode := ' '

def Inconsistent : StatusCode := '!'

def Untracked : StatusCode := '?'

def Modified : StatusCode := 'M'

def Added : StatusCode := 'A'

def Deleted : StatusCode := 'D'

def Renamed : StatusCode := 'R'

def Copied : StatusCode := 'C'

def UpdatedButUnmerged : StatusCode := 'U'

/-- The raw per-file status codes the go-git engine can report for the
staging and worktree dimensions (go-git's own StatusCode constants:
Unmodified, Untracked, Modified, Added, Deleted, Renamed, Copied,
UpdatedButUnmerged). The synthetic `Inconsistent` code is gitfs's own
addition and is never produced by the engine. -/
def goGitCodes : List StatusCode := [' ', '?', 'M', 'A', 'D', 'R', 'C', 'U']

/-- A code is a valid raw go-git status code. -/
def GoGitCode (c : StatusCode) : Prop := c ∈ goGitCodes

instance (c : StatusCode) : Decidable (GoGitCode c) :=
  inferInstanceAs (Decidable (c ∈ goGitCodes))

/-- A raw status entry for one path: the pair of staging and worktree
states (go-git's FileStatus, restricted to the two fields gitfs reads). -/
structure FileStatus where
  staging : StatusCode
  worktree : StatusCode

/-- The reconciliation callback body inlined in `Git.GetStatus`:
given the raw entry for a visited path (or none when the engine has no
entry for it), decide which status code (if any) the path gets in the
returned map.  Translated branch by branch from the source. -/
def reconcile (fstatus : Option FileStatus) : Option StatusCode :=
  match fstatus with
  | none => none
  | some f =>
    if f.staging = Unmodified ∧ f.worktree = Unmodified then none
    else if f.staging = Unmodified then some f.worktree
    else if f.worktree = Unmodified then some f.staging
    else if f.staging ≠ f.worktree then some Inconsistent
    else some f.worktree

/-- The reserved metadata subdirectory name (git.GitDirName). -/
def gitDirName : String := ".git"

/-- A node of a backing-store directory tree: a regular file or a
directory with a listing of named children (the model of a billy
filesystem's contents). -/
inductive FsNode where
  | file : FsNode
  | dir (entries : List (String × FsNode)) : FsNode

/-- A directory listing: what fs.ReadDir reports for one directory. -/
abbrev FsTree := List (String × FsNode)

/-- filepath.Join(dir, name) for an absolute clean dir and a plain name. -/
def joinPath (dir name : String) : String :=
  if dir = "/" then "/" ++ name else dir ++ "/" ++ name

/-- The recursive walk `traverseDir` of the source, with the callback
reified as the returned list of its argument strings, in invocation
order: entries named `.git` are skipped, directories recurse, files
produce `path[1:]` (the joined path with its leading slash dropped). -/
def traverseDir (dir : String) (entries : FsTree) : List String :=
  match entries with
  | [] => []
  | (name, node) :: rest =>
    (if name = gitDirName then []
     else match node with
       | .dir sub => traverseDir (joinPath dir name) sub
       | .file => [(joinPath dir name).drop 1])
    ++ traverseDir dir rest

/-- Lookup of `s[path]` in the raw status map (a nil-able map access in
the source; `none` models the nil entry). -/
def lookupRaw (raw : List (String × FileStatus)) (path : String) :
    Option FileStatus :=
  (raw.find? (fun e => e.1 == path)).map (·.2)

/-- The status map built by `Git.GetStatus` once the raw engine status is
in hand: walk the tree from the root and apply the reconciliation
callback to every visited file path. -/
def getStatusMap (raw : List (String × FileStatus)) (tree : FsTree) :
    List (String × StatusCode) :=
  (traverseDir "/" tree).filterMap
    (fun path => (reconcile (lookupRaw raw path)).map (fun c => (path, c)))

/-- Outcome of the underlying worktree pull call: go-git either reports
NoErrAlreadyUpToDate or some other error (none models a nil error). -/
inductive PullOutcome where
  | noErrAlreadyUpToDate : PullOutcome
  | err (msg : String) : PullOutcome
deriving DecidableEq

/-- The text go-git attaches to a pull outcome. -/
def PullOutcome.msg : PullOutcome → String
  | .noErrAlreadyUpToDate => "already up-to-date"
  | .err m => m

/-- The Git handle of the source.  `repoUrl` and `pulled` are the fields
of the Go struct; `fs` is the contents of the billy filesystem; the
remaining fields are oracles for the outcomes of the go-git library calls
an operation performs (the library owns the actual repository state):
`wtStatus`/`statusErr` for wt.Status, `pullOutcome` for wt.Pull,
`resetErr` for the RemoveAll/Init/CreateRemote/Worktree sequence inside
Reset, `addErr` for wt.Add, `commitErr` for wt.Commit,
`remoteDiverged`/`transportErr` for repo.Push, and `now` for the
formatted time.Now() used in the sync commit message. -/
structure Git where
  repoUrl : String
  pulled : Bool
  fs : FsTree
  wtStatus : List (String × FileStatus)
  statusErr : Option String
  pullOutcome : Option PullOutcome
  resetErr : Option String
  addErr : Option String
  commitErr : Option String
  remoteDiverged : Bool
  transportErr : Option String
  now : String

/-- Git.Pull of the source: a pull error is swallowed exactly when it is
NoErrAlreadyUpToDate, otherwise it is wrapped and returned. -/
def Git.Pull (g : Git) : Option String :=
  match g.pullOutcome with
  | none => none
  | some e =>
    if e ≠ PullOutcome.noErrAlreadyUpToDate then
      some (wrap "error pulling changes from origin" e.msg)
    else none

/-- Git.Reset of the source, with the outcome of its library-call
sequence (RemoveAll of .git, buildDotStore, Init, CreateRemote,
Worktree) abstracted by the `resetErr` oracle. -/
def Git.Reset (g : Git) : Option String := g.resetErr

/-- Git.AddAll of the source: wt.Add("") with its error returned as is. -/
def Git.AddAll (g : Git) : Option String := g.addErr

/-- Git.Commit of the source: wt.Commit with the given message; the
message does not influence success or failure. -/
def Git.Commit (g : Git) (_msg : String) : Option String := g.commitErr

/-- The push refspec constant of Git.Push in the source. -/
def pushRefSpec : String := "+refs/heads/master:refs/heads/master"

/-- go-git RefSpec.IsForceUpdate: a refspec whose first character is '+'
requests a forced (non-fast-forward permitted) update. -/
def refSpecIsForceUpdate (r : String) : Bool := r.data.head? == some '+'

/-- Modelled library behavior (go-git Remote.Push): a push whose local
branch has diverged from the remote (a non-fast-forward update) is
rejected with an error unless the refspec carries the force flag; any
other transport or auth failure surfaces through the error oracle. -/
def libPush (refSpec : String) (diverged : Bool)
    (transportErr : Option String) : Option String :=
  match transportErr with
  | some e => some e
  | none =>
    if diverged ∧ ¬refSpecIsForceUpdate refSpec then
      some "non-fast-forward update"
    else none

/-- Git.Push of the source: repo.Push with remote "origin" and the fixed
force refspec mapping local master to remote master. -/
def Git.Push (g : Git) : Option String :=
  libPush pushRefSpec g.remoteDiverged g.transportErr

/-- Git.GetStatus of the source: wt.Status, then the traversal with the
reconciliation callback accumulating the returned map. -/
def Git.GetStatus (g : Git) : Except String (List (String × StatusCode)) :=
  match g.statusErr with
  | some e => .error (wrap "error getting status" e)
  | none => .ok (getStatusMap g.wtStatus g.fs)

/-- Git.FileSystem of the source: the handle's billy filesystem. -/
def Git.FileSystem (g : Git) : FsTree := g.fs

/-- The handle state with only its pulled flag replaced. -/
def setPulled (g : Git) (b : Bool) : Git := { g with pulled := b }

/-- The configuration struct of fs.go. -/
structure Config where
  repoUrl : String
  useMemFs : Bool
  osFsBaseDir : String
  openExisting : Bool

/-- Config.Valid of the source.  The source trims the url and base-dir
fields in place and then tests them; the model computes on the trimmed
values.  The result is the returned error, none meaning valid. -/
def Config.Valid (c : Config) : Option String :=
  if c.repoUrl.trim = "" then some "empty repo url"
  else if c.useMemFs ∧ c.osFsBaseDir.trim ≠ "" then
    some "memFs and osFs base dir are mutually exclusive"
  else if ¬c.useMemFs ∧ c.osFsBaseDir.trim = "" then
    some "osFs base dir is not provided"
  else none

/-- Outcome of the fs.Stat(git.GitDirName) probe in buildDotStore:
either the stat succeeded (reporting whether the path is a directory),
or it failed with an os.IsNotExist error, or with any other error. -/
inductive StatOutcome where
  | found (isDir : Bool) : StatOutcome
  | errNotExist : StatOutcome
  | errOther (msg : String) : StatOutcome

/-- buildDotStore of the source, over the probe outcome, the outcome of
the subsequent fs.Chroot(".git") call, and the errorIfExists flag.  On
success the returned Bool is the `exists` result (the storage object
itself carries no further information at this level). -/
def buildDotStore (stat : StatOutcome) (chrootErr : Option String)
    (errorIfExists : Bool) : Except String Bool :=
  match stat with
  | .errOther e => .error e
  | .errNotExist =>
    match chrootErr with
    | some e => .error (wrap ("error chrooting " ++ gitDirName) e)
    | none => .ok false
  | .found isDir =>
    if errorIfExists then .error "repo already exists"
    else if !isDir then .error ".git is not a directory"
    else
      match chrootErr with
      | some e => .error (wrap ("error chrooting " ++ gitDirName) e)
      | none => .ok true

/-- Splitting a character list on '/' (the component decomposition of a
slash-separated path). -/
def splitSlash : List Char → List (List Char)
  | [] => [[]]
  | c :: rest =>
    if c = '/' then [] :: splitSlash rest
    else
      match splitSlash rest with
      | [] => [[c]]
      | h :: t => (c :: h) :: t

/-- The slash-separated components of a path string. -/
def pathComponents (p : String) : List String :=
  (splitSlash p.data).map (fun l => ⟨l⟩)

/-- Path components with empty components dropped (so absolute and
relative spellings resolve alike). -/
def cleanComponents (p : String) : List String :=
  (pathComponents p).filter (fun c => c ≠ "")

/-- Lookup of a name in a directory listing. -/
def findEntry (es : FsTree) (name : String) : Option FsNode :=
  (es.find? (fun e => e.1 == name)).map (·.2)

/-- Resolution of a component path against a node of the tree. -/
def resolveNode : FsNode → List String → Option FsNode
  | n, [] => some n
  | .file, _ :: _ => none
  | .dir es, c :: rest =>
    match findEntry es c with
    | none => none
    | some n => resolveNode n rest

/-- fs.Stat of the backing-store model: resolve the path to a node, none
meaning the path does not exist. -/
def fsStat (t : FsTree) (path : String) : Option FsNode :=
  resolveNode (.dir t) (cleanComponents path)

/-- fs.Chroot of the backing-store model: the sub-view rooted at the
path.  A billy chroot does not require the target to exist, so a missing
target yields an empty view; a file target cannot be a root. -/
def fsChroot (t : FsTree) (path : String) : Except String FsTree :=
  match fsStat t path with
  | some (.dir es) => .ok es
  | some .file => .error "chroot: not a directory"
  | none => .ok []

/-- The GitFs facade struct of fs.go: a nil-able pointer to the git
client and the billy filesystem the file operations forward to. -/
structure GitFs where
  git : Option Git
  fs : FsTree

/-- Result of calling a GitFs method whose body dereferences the git
client: `fault` models the nil-pointer panic taken when the handle
carries no client. -/
inductive MethodResult (α : Type) where
  | fault : MethodResult α
  | ok (a : α) : MethodResult α
deriving DecidableEq

/-- The sync commit message of fs.go: "gitfs sync - " with the formatted
current time appended. -/
def commitMsg (now : String) : String := "gitfs sync - " ++ now

/-- The body of GitFs.Sync from fs.go, given the (non-nil) git client:
optional Reset, then AddAll, then Commit, then Push, each wrapped with
its own context message and short-circuiting the rest on failure. -/
def GitFs.syncGit (g : Git) (purge : Bool) : Option String :=
  match (if purge then Git.Reset g else none) with
  | some e => some (wrap "error resetting git" e)
  | none =>
    match Git.AddAll g with
    | some e => some (wrap "error adding files to git" e)
    | none =>
      match Git.Commit g (commitMsg g.now) with
      | some e => some (wrap "error committing sync changes" e)
      | none =>
        match Git.Push g with
        | some e => some (wrap "error pushing change to remote repo" e)
        | none => none

/-- GitFs.Sync of fs.go.  The body dereferences g.git, so a handle with
no attached client faults. -/
def GitFs.Sync (g : GitFs) (purge : Bool) : MethodResult (Option String) :=
  match g.git with
  | none => .fault
  | some γ => .ok (GitFs.syncGit γ purge)

/-- GitFs.Pull of fs.go: forwards to the git client; a handle with no
attached client faults. -/
def GitFs.Pull (g : GitFs) : MethodResult (Option String) :=
  match g.git with
  | none => .fault
  | some γ => .ok (Git.Pull γ)

/-- GitFs.Stat of fs.go: pure forwarding to the billy filesystem. -/
def GitFs.Stat (g : GitFs) (filename : String) : Option FsNode :=
  fsStat g.fs filename

/-- GitFs.Exist of fs.go: stat composed with a not-found classification
(in the pure tree model stat has no failure mode other than absence). -/
def GitFs.Exist (g : GitFs) (path : String) : Except String Bool :=
  .ok (fsStat g.fs path).isSome

/-- GitFs.Chroot of fs.go: chroot the billy filesystem and wrap the
sub-view in a fresh GitFs literal whose git field is left nil. -/
def GitFs.Chroot (g : GitFs) (path : String) : Except String GitFs :=
  match fsChroot g.fs path with
  | .error e => .error e
  | .ok sub => .ok { git := none, fs := sub }

/-- Recursive removal of every entry named `.git`, at every level of the
tree (used to state that the traversal skips such entries). -/
def pruneGit (entries : FsTree) : FsTree :=
  match entries with
  | [] => []
  | (name, node) :: rest =>
    if name = gitDirName then pruneGit rest
    else
      (match node with
       | .dir sub => [(name, FsNode.dir (pruneGit sub))]
       | .file => [(name, FsNode.file)]) ++ pruneGit rest

/-- A directory-entry name is well formed when it is nonempty and has no
path separator in it (what a real ReadDir reports). -/
def wfName (n : String) : Bool := (n != "") && !(n.data.contains '/')

/-- Well-formedness of a whole tree: every entry name at every level is
well formed. -/
def wfEntries : FsTree → Bool
  | [] => true
  | (name, node) :: rest =>
    wfName name &&
    (match node with
     | .file => true
     | .dir sub => wfEntries sub) &&
    wfEntries rest

/-- A sample handle state with every library-call oracle reporting
success, used to instantiate the theorems below at concrete inputs. -/
def sampleGit : Git :=
  { repoUrl := "git@example.com:a/b.git"
  , pulled := false
  , fs := []
  , wtStatus := []
  , statusErr := none
  , pullOutcome := none
  , resetErr := none
  , addErr := none
  , commitErr := none
  , remoteDiverged := false
  , transportErr := none
  , now := "2020-01-01T00:00:00Z" }

/-- Association lookup in a status map (status maps are modelled as
association lists, so map equality is compared through key lookup). -/
def lookupCode (m : List (String × StatusCode)) (k : String) :
    Option StatusCode :=
  (m.find? (fun e => e.1 == k)).map (·.2)

/-! Theorems. -/

/-- C5. Config.Valid fails exactly when the trimmed url is empty, or the
memory kind comes with a non-empty trimmed base directory, or the
path-rooted kind comes with an empty trimmed base directory. -/
theorem config_valid_iff (c : Config) :
    (Config.Valid c).isSome ↔
      (c.repoUrl.trim = "" ∨
       (c.useMemFs = true ∧ c.osFsBaseDir.trim ≠ "") ∨
       (c.useMemFs = false ∧ c.osFsBaseDir.trim = "")) := by
  unfold Config.Valid
  rcases c with ⟨url, mem, base, oe⟩
  cases mem <;> split_ifs <;> simp_all

/-- C7. Git.Pull treats the library's already-up-to-date report as
success and fails exactly when the underlying pull fails with any other
error, wrapped with the pull context message. -/
theorem pull_swallows_up_to_date (g : Git) :
    (g.pullOutcome = none → Git.Pull g = none) ∧
    (g.pullOutcome = some PullOutcome.noErrAlreadyUpToDate →
      Git.Pull g = none) ∧
    (∀ m, g.pullOutcome = some (PullOutcome.err m) →
      Git.Pull g = some (wrap "error pulling changes from origin" m)) ∧
    (Git.Pull g ≠ none ↔ ∃ m, g.pullOutcome = some (PullOutcome.err m)) := by
  unfold Git.Pull
  rcases h : g.pullOutcome with _ | e
  · simp
  · cases e <;> simp [PullOutcome.msg]

/-- Witness for C7: the three pull outcomes at concrete handle states. -/
theorem pull_swallows_up_to_date_witness :
    Git.Pull sampleGit = none ∧
    Git.Pull { sampleGit with
      pullOutcome := some PullOutcome.noErrAlreadyUpToDate } = none ∧
    Git.Pull { sampleGit with
      pullOutcome := some (PullOutcome.err "conn reset") } =
      some (wrap "error pulling changes from origin" "conn reset") :=
  ⟨(pull_swallows_up_to_date sampleGit).1 rfl,
   (pull_swallows_up_to_date _).2.1 rfl,
   (pull_swallows_up_to_date _).2.2.1 "conn reset" rfl⟩

/-- Counterexample for C4: when the metadata path exists as a non-
directory and errorIfExists is true, buildDotStore fails with the
already-exists error, not with the corrupt-repository error, so the
claimed flag-independence is false at this input. -/
theorem buildDotStore_nondir_counterexample :
    buildDotStore (StatOutcome.found false) none true =
      .error "repo already exists" ∧
    ("repo already exists" : String) ≠ ".git is not a directory" :=
  ⟨rfl, by decide⟩

/-- C4 (amended). When the metadata path exists but is not a directory,
buildDotStore fails for every flag value, but the error depends on the
flag: the corrupt-repository error when errorIfExists is false, the
already-exists error (whose guard runs first) when it is true. -/
theorem buildDotStore_nondir (chrootErr : Option String) :
    buildDotStore (StatOutcome.found false) chrootErr false =
      .error ".git is not a directory" ∧
    buildDotStore (StatOutcome.found false) chrootErr true =
      .error "repo already exists" :=
  ⟨rfl, rfl⟩

/-- Counterexample for C3: at a handle whose remote has diverged and
with no other transport failure, Git.Push succeeds (the refspec is a
forced update), and sync reports success rather than a push failure. -/
theorem push_diverged_counterexample :
    Git.Push { sampleGit with remoteDiverged := true } = none ∧
    GitFs.syncGit { sampleGit with remoteDiverged := true } false = none :=
  ⟨rfl, rfl⟩

/-- C3 (amended). The push refspec carries the force flag, so a diverged
remote does not make Push fail: absent any other transport error Push
succeeds even when the remote has advanced, overwriting the remote
branch instead of reporting divergence. -/
theorem push_force_overwrites (g : Git) (h : g.transportErr = none) :
    refSpecIsForceUpdate pushRefSpec = true ∧ Git.Push g = none := by
  have hforce : refSpecIsForceUpdate pushRefSpec = true := rfl
  refine ⟨hforce, ?_⟩
  simp [Git.Push, libPush, h, hforce]

/-- Witness for C3 (amended): a diverged handle with no transport error
pushes successfully. -/
theorem push_force_overwrites_witness :
    refSpecIsForceUpdate pushRefSpec = true ∧
    Git.Push { sampleGit with remoteDiverged := true } = none :=
  push_force_overwrites { sampleGit with remoteDiverged := true } rfl

/-- C2. GitFs.Sync runs reset (exactly when purge is set), stage-all,
commit and push in that order, each step only when every earlier step
succeeded, returns the first failing step's error wrapped with that
step's context message, and the outcome never depends on the oracles of
the steps after the first failure (they are not executed). -/
theorem sync_sequence (g : Git) (purge : Bool) :
    (∀ e, purge = true → g.resetErr = some e →
      GitFs.syncGit g purge = some (wrap "error resetting git" e)) ∧
    (∀ r, GitFs.syncGit { g with resetErr := r } false =
      GitFs.syncGit g false) ∧
    (∀ e, (purge = true → g.resetErr = none) → g.addErr = some e →
      GitFs.syncGit g purge = some (wrap "error adding files to git" e)) ∧
    (∀ e, (purge = true → g.resetErr = none) → g.addErr = none →
      g.commitErr = some e →
      GitFs.syncGit g purge = some (wrap "error committing sync changes" e)) ∧
    (∀ e, (purge = true → g.resetErr = none) → g.addErr = none →
      g.commitErr = none → Git.Push g = some e →
      GitFs.syncGit g purge =
        some (wrap "error pushing change to remote repo" e)) ∧
    ((purge = true → g.resetErr = none) → g.addErr = none →
      g.commitErr = none → Git.Push g = none →
      GitFs.syncGit g purge = none) := by
  cases purge <;>
    · refine ⟨?_, ?_, ?_, ?_, ?_, ?_⟩ <;>
        intros <;>
        simp_all [GitFs.syncGit, Git.Reset, Git.AddAll, Git.Commit,
          Git.Push, libPush]

/-- Witness for C2: each branch of the sequencing theorem at a concrete
handle state exercising that branch. -/
theorem sync_sequence_witness :
    GitFs.syncGit { sampleGit with resetErr := some "rm failed" } true =
      some (wrap "error resetting git" "rm failed") ∧
    GitFs.syncGit { sampleGit with resetErr := some "rm failed" } false =
      GitFs.syncGit sampleGit false ∧
    GitFs.syncGit
      { sampleGit with
          resetErr := some "rm failed"
          addErr := some "index locked" }
      false =
      some (wrap "error adding files to git" "index locked") ∧
    GitFs.syncGit { sampleGit with commitErr := some "empty commit" } true =
      some (wrap "error committing sync changes" "empty commit") ∧
    GitFs.syncGit { sampleGit with transportErr := some "auth denied" } false =
      some (wrap "error pushing change to remote repo" "auth denied") ∧
    GitFs.syncGit sampleGit true = none :=
  ⟨(sync_sequence _ true).1 "rm failed" rfl rfl,
   ((sync_sequence sampleGit false).2.1 (some "rm failed")),
   (sync_sequence _ false).2.2.1 "index locked" (fun h => by cases h) rfl,
   (sync_sequence _ true).2.2.2.1 "empty commit" (fun _ => rfl) rfl rfl,
   (sync_sequence _ false).2.2.2.2.1 "auth denied" (fun h => by cases h)
     rfl rfl rfl,
   (sync_sequence _ true).2.2.2.2.2 (fun _ => rfl) rfl rfl rfl⟩

/-- C9. No operation reads or writes the handle's pulled flag: replacing
the flag changes neither the result of pull, reset, stage-all, commit,
push, status, or sync, nor the forwarded file operations of the facade
(which consult only the filesystem). -/
theorem pulled_flag_unused (g : Git) (b : Bool) (purge : Bool)
    (t : FsTree) (p : String) :
    Git.Pull (setPulled g b) = Git.Pull g ∧
    Git.Reset (setPulled g b) = Git.Reset g ∧
    Git.AddAll (setPulled g b) = Git.AddAll g ∧
    (∀ m, Git.Commit (setPulled g b) m = Git.Commit g m) ∧
    Git.Push (setPulled g b) = Git.Push g ∧
    Git.GetStatus (setPulled g b) = Git.GetStatus g ∧
    GitFs.syncGit (setPulled g b) purge = GitFs.syncGit g purge ∧
    GitFs.Sync { git := some (setPulled g b), fs := t } purge =
      GitFs.Sync { git := some g, fs := t } purge ∧
    GitFs.Pull { git := some (setPulled g b), fs := t } =
      GitFs.Pull { git := some g, fs := t } ∧
    GitFs.Stat { git := some (setPulled g b), fs := t } p =
      GitFs.Stat { git := some g, fs := t } p ∧
    GitFs.Exist { git := some (setPulled g b), fs := t } p =
      GitFs.Exist { git := some g, fs := t } p ∧
    Git.FileSystem (setPulled g b) = Git.FileSystem g := by
  refine ⟨?_, rfl, rfl, fun _ => rfl, rfl, ?_, ?_, ?_, ?_, rfl, rfl, rfl⟩ <;>
    simp [setPulled, Git.Pull, Git.GetStatus, GitFs.syncGit, Git.Reset,
      Git.AddAll, Git.Commit, Git.Push, GitFs.Sync, GitFs.Pull,
      getStatusMap]

/-- C8. Status reconciliation is idempotent: two calls on the same
handle state (no intervening mutation; no operation of the model mutates
the handle) return the same map, with the same key set and the same code
at every key. -/
theorem status_idempotent (g : Git) (m₁ m₂ : List (String × StatusCode))
    (h₁ : Git.GetStatus g = .ok m₁) (h₂ : Git.GetStatus g = .ok m₂) :
    m₁ = m₂ ∧ m₁.map Prod.fst = m₂.map Prod.fst ∧
    ∀ k, lookupCode m₁ k = lookupCode m₂ k := by
  have h := h₁.symm.trans h₂
  rw [Except.ok.injEq] at h
  subst h
  exact ⟨rfl, rfl, fun _ => rfl⟩

/-- Witness for C8: a concrete handle whose tree holds one modified file
evaluates to the same one-entry map on both calls. -/
theorem status_idempotent_witness :
    Git.GetStatus
      { sampleGit with
          fs := [("a", FsNode.file)]
          wtStatus := [("a", ⟨Modified, Unmodified⟩)] } =
      .ok [("a", Modified)] ∧
    ([("a", Modified)] : List (String × StatusCode)) = [("a", Modified)] := by
  have hev : Git.GetStatus
      { sampleGit with
          fs := [("a", FsNode.file)]
          wtStatus := [("a", ⟨Modified, Unmodified⟩)] } =
      .ok [("a", Modified)] := by
    have hdrop : ("/a" : String).drop 1 = "a" := rfl
    simp [Git.GetStatus, sampleGit, getStatusMap, traverseDir, joinPath,
      gitDirName, hdrop]
    decide
  exact ⟨hev, (status_idempotent _ _ _ hev hev).1⟩

/-- C10. A handle returned by a successful GitFs.Chroot carries no git
client: pull and sync on it fault (the nil client is dereferenced),
while the file operations forward to the sub-rooted filesystem. -/
theorem chroot_detaches_git (g : GitFs) (path : String) (g' : GitFs)
    (h : GitFs.Chroot g path = .ok g') :
    g'.git = none ∧
    GitFs.Pull g' = .fault ∧
    (∀ purge, GitFs.Sync g' purge = .fault) ∧
    (∀ p, GitFs.Stat g' p = fsStat g'.fs p) ∧
    (∀ p, GitFs.Exist g' p = .ok (fsStat g'.fs p).isSome) ∧
    fsChroot g.fs path = .ok g'.fs := by
  unfold GitFs.Chroot at h
  rcases hc : fsChroot g.fs path with e | sub <;> rw [hc] at h
  · cases h
  · rw [Except.ok.injEq] at h
    subst h
    exact ⟨rfl, rfl, fun _ => rfl, fun _ => rfl, fun _ => rfl, rfl⟩

/-- Witness for C10: chrooting a concrete handle into a subdirectory
yields a client-less handle that faults on pull and sync but resolves
files of the sub-view. -/
theorem chroot_detaches_git_witness :
    GitFs.Chroot
      { git := some sampleGit
        fs := [("a", FsNode.dir [("b", FsNode.file)])] } "a" =
      .ok { git := none, fs := [("b", FsNode.file)] } ∧
    ({ git := none, fs := [("b", FsNode.file)] } : GitFs).git = none ∧
    GitFs.Pull { git := none, fs := [("b", FsNode.file)] } = .fault ∧
    GitFs.Sync { git := none, fs := [("b", FsNode.file)] } true = .fault ∧
    GitFs.Stat { git := none, fs := [("b", FsNode.file)] } "b" =
      some FsNode.file := by
  have h : GitFs.Chroot
      { git := some sampleGit
        fs := [("a", FsNode.dir [("b", FsNode.file)])] } "a" =
      .ok { git := none, fs := [("b", FsNode.file)] } := by
    simp [GitFs.Chroot, fsChroot, fsStat, cleanComponents, pathComponents,
      splitSlash, resolveNode, findEntry]
  have c := chroot_detaches_git _ "a" _ h
  exact ⟨h, c.1, c.2.1, c.2.2.1 true, by
    rw [c.2.2.2.1 "b"]
    simp [fsStat, cleanComponents, pathComponents, splitSlash,
      resolveNode, findEntry]⟩

/-- C1. The reconciliation decision table of Git.GetStatus, row by row
(reconcile is a Lean function, hence total and deterministic over all
pairs): a missing raw entry or a doubly-Unmodified entry is omitted;
when exactly one state is Unmodified the other state's code is recorded;
two equal non-Unmodified states record their common code; and over the
raw codes the engine can produce, Inconsistent is recorded exactly when
both states are non-Unmodified and unequal. -/
theorem reconcile_decision_table (s w : StatusCode) :
    reconcile none = none ∧
    reconcile (some ⟨Unmodified, Unmodified⟩) = none ∧
    (w ≠ Unmodified → reconcile (some ⟨Unmodified, w⟩) = some w) ∧
    (s ≠ Unmodified → reconcile (some ⟨s, Unmodified⟩) = some s) ∧
    (s ≠ Unmodified → w ≠ Unmodified → s = w →
      reconcile (some ⟨s, w⟩) = some w) ∧
    (GoGitCode s → GoGitCode w →
      (reconcile (some ⟨s, w⟩) = some Inconsistent ↔
        s ≠ Unmodified ∧ w ≠ Unmodified ∧ s ≠ w)) := by
  refine ⟨rfl, rfl, ?_, ?_, ?_, ?_⟩
  · intro hw
    simp [reconcile, hw]
  · intro hs
    simp [reconcile, hs]
  · intro hs hw hsw
    subst hsw
    simp [reconcile, hs]
  · intro hvs hvw
    simp only [GoGitCode, goGitCodes] at hvs hvw
    fin_cases hvs <;> fin_cases hvw <;> decide

/-- Witness for C1: one concrete entry per conditional row of the
table. -/
theorem reconcile_decision_table_witness :
    reconcile (some ⟨Unmodified, Modified⟩) = some Modified ∧
    reconcile (some ⟨Added, Unmodified⟩) = some Added ∧
    reconcile (some ⟨Deleted, Deleted⟩) = some Deleted ∧
    reconcile (some ⟨Added, Deleted⟩) = some Inconsistent ∧
    reconcile (some ⟨Added, Added⟩) ≠ some Inconsistent :=
  ⟨(reconcile_decision_table Unmodified Modified).2.2.1 (by decide),
   (reconcile_decision_table Added Unmodified).2.2.2.1 (by decide),
   (reconcile_decision_table Deleted Deleted).2.2.2.2.1 (by decide)
     (by decide) rfl,
   ((reconcile_decision_table Added Deleted).2.2.2.2.2 (by decide)
     (by decide)).mpr ⟨by decide, by decide, by decide⟩,
   fun h => by
     rcases ((reconcile_decision_table Added Added).2.2.2.2.2 (by decide)
       (by decide)).mp h with ⟨-, -, hne⟩
     exact hne rfl⟩

/-- splitSlash never returns the empty list. -/
theorem splitSlash_ne_nil (l : List Char) : splitSlash l ≠ [] := by
  induction l with
  | nil => simp [splitSlash]
  | cons c rest ih =>
    unfold splitSlash
    split_ifs
    · simp
    · rcases h : splitSlash rest with _ | ⟨h1, t⟩
      · exact absurd h ih
      · simp

/-- splitSlash distributes over a separator occurrence. -/
theorem splitSlash_append (a b : List Char) :
    splitSlash (a ++ '/' :: b) = splitSlash a ++ splitSlash b := by
  induction a with
  | nil => simp [splitSlash]
  | cons c a ih =>
    by_cases hc : c = '/'
    · subst hc
      simp [splitSlash, ih]
    · rcases h : splitSlash a with _ | ⟨x, t⟩
      · exact absurd h (splitSlash_ne_nil a)
      · show splitSlash (c :: (a ++ '/' :: b)) = splitSlash (c :: a) ++ splitSlash b
        unfold splitSlash
        rw [if_neg hc, if_neg hc, ih, h]
        simp
        conv_lhs => rw [splitSlash.eq_def]

/-- A separator-free character list is its own single component. -/
theorem splitSlash_no_slash (l : List Char) (h : '/' ∉ l) :
    splitSlash l = [l] := by
  induction l with
  | nil => rfl
  | cons c rest ih =>
    simp only [List.mem_cons, not_or] at h
    unfold splitSlash
    rw [if_neg (fun hh => h.1 hh.symm), ih h.2]

/-- Strings with equal character data are equal. -/
theorem strData_inj {s t : String} (h : s.data = t.data) : s = t := by
  cases s
  cases t
  cases h
  rfl

/-- Rebuilding a string from its own character data is the identity. -/
theorem strMk_data (s : String) : (⟨s.data⟩ : String) = s := by
  cases s
  rfl

/-- Unfolding of well-formedness of a single name. -/
theorem wfName_spec (n : String) (h : wfName n = true) :
    n ≠ "" ∧ '/' ∉ n.data := by
  simp only [wfName, Bool.and_eq_true, bne_iff_ne, ne_eq,
    Bool.not_eq_true'] at h
  refine ⟨h.1, ?_⟩
  have h2 := h.2
  simpa using h2

/-- Joining a well-formed, non-metadata name onto a directory whose
components are free of the metadata name yields a path that again starts
with a slash, whose components stay free of the metadata name, and whose
tail (the path with the leading slash dropped) is exactly the data of
the relative path the traversal callback receives. -/
theorem joinPath_invariant (dir name : String) (d : List Char)
    (hd : dir.data = '/' :: d)
    (hdir : ∀ comp ∈ splitSlash d, (⟨comp⟩ : String) ≠ gitDirName)
    (hn : wfName name = true) (hname : name ≠ gitDirName) :
    ∃ d', (joinPath dir name).data = '/' :: d' ∧
      (∀ comp ∈ splitSlash d', (⟨comp⟩ : String) ≠ gitDirName) ∧
      ((joinPath dir name).drop 1).data = d' := by
  obtain ⟨-, hslash⟩ := wfName_spec name hn
  have hmk : (⟨name.data⟩ : String) = name := by cases name; rfl
  by_cases hroot : dir = "/"
  · subst hroot
    refine ⟨name.data, ?_, ?_, ?_⟩
    · simp [joinPath, String.data_append]
    · rw [splitSlash_no_slash name.data hslash]
      intro comp hc
      simp only [List.mem_singleton] at hc
      subst hc
      rw [hmk]
      exact hname
    · simp [joinPath, String.drop_eq, String.data_append]
  · refine ⟨d ++ '/' :: name.data, ?_, ?_, ?_⟩
    · simp [joinPath, hroot, String.data_append, hd]
    · rw [splitSlash_append, splitSlash_no_slash name.data hslash]
      intro comp hc
      rcases List.mem_append.mp hc with h1 | h1
      · exact hdir comp h1
      · simp only [List.mem_singleton] at h1
        subst h1
        rw [hmk]
        exact hname
    · simp [joinPath, hroot, String.drop_eq, String.data_append, hd]

/-- Every path the traversal hands to its callback, relative to a
directory that starts with a slash and whose components avoid the
metadata name, has all of its slash-separated components distinct from
the metadata name, provided the tree's entry names are well formed. -/
theorem traverse_no_git_components (dir : String) (entries : FsTree) :
    wfEntries entries = true →
    (∃ d, dir.data = '/' :: d ∧
      ∀ comp ∈ splitSlash d, (⟨comp⟩ : String) ≠ gitDirName) →
    ∀ p ∈ traverseDir dir entries, ∀ comp ∈ splitSlash p.data,
      (⟨comp⟩ : String) ≠ gitDirName := by
  induction dir, entries using traverseDir.induct with
  | case1 dir =>
    intro _ _ p hp
    simp [traverseDir] at hp
  | case2 dir name node rest ihsub ihrest =>
    intro hwf hdir p hp
    have hwf' := hwf
    unfold wfEntries at hwf'
    simp only [Bool.and_eq_true] at hwf'
    obtain ⟨⟨hn, hnode⟩, hrest⟩ := hwf'
    cases node with
    | file =>
      simp only [traverseDir, List.mem_append] at hp
      rcases hp with hp | hp
      · by_cases hname : name = gitDirName
        · rw [if_pos hname] at hp
          simp at hp
        · rw [if_neg hname] at hp
          obtain ⟨d, hd, hcomps⟩ := hdir
          obtain ⟨d', hjoin, hcomps', hdropped⟩ :=
            joinPath_invariant dir name d hd hcomps hn hname
          simp only [List.mem_singleton] at hp
          subst hp
          rw [hdropped]
          exact hcomps'
      · exact ihrest hrest hdir p hp
    | dir sub =>
      simp only [traverseDir, List.mem_append] at hp
      rcases hp with hp | hp
      · by_cases hname : name = gitDirName
        · rw [if_pos hname] at hp
          simp at hp
        · rw [if_neg hname] at hp
          obtain ⟨d, hd, hcomps⟩ := hdir
          obtain ⟨d', hjoin, hcomps', hdropped⟩ :=
            joinPath_invariant dir name d hd hcomps hn hname
          exact ihsub hnode ⟨d', hjoin, hcomps'⟩ p hp
      · exact ihrest hrest hdir p hp

/-- The traversal is unchanged when every entry named `.git`, at every
level, is removed from the tree: such entries are neither descended into
nor reported. -/
theorem traverse_prune (dir : String) (entries : FsTree) :
    traverseDir dir entries = traverseDir dir (pruneGit entries) := by
  induction dir, entries using traverseDir.induct with
  | case1 dir => simp [pruneGit]
  | case2 dir name node rest ihsub ihrest =>
    by_cases hname : name = gitDirName
    · cases node <;>
        simp [traverseDir, pruneGit, hname, ihrest]
    · cases node with
      | file => simp [traverseDir, pruneGit, hname, ihrest]
      | dir sub => simp [traverseDir, pruneGit, hname, ihrest, ihsub]

/-- C6. The metadata subdirectory name is invisible to status
reconciliation: the traversal is unchanged by deleting every `.git`
entry at every level (they are skipped, neither descended into nor
reported); no path handed to the traversal callback is the metadata
name, or has it as a slash-separated component; and every key of the
status map is one of the callback paths, hence satisfies the same. -/
theorem metadata_subdir_skipped (raw : List (String × FileStatus))
    (tree : FsTree) (hwf : wfEntries tree = true) :
    traverseDir "/" tree = traverseDir "/" (pruneGit tree) ∧
    (∀ p ∈ traverseDir "/" tree,
      gitDirName ∉ pathComponents p ∧ p ≠ gitDirName) ∧
    (∀ k c, (k, c) ∈ getStatusMap raw tree →
      k ∈ traverseDir "/" tree ∧ gitDirName ∉ pathComponents k ∧
        k ≠ gitDirName) := by
  have hroot : ∃ d, ("/" : String).data = '/' :: d ∧
      ∀ comp ∈ splitSlash d, (⟨comp⟩ : String) ≠ gitDirName := by
    refine ⟨[], rfl, ?_⟩
    intro comp hc
    simp [splitSlash] at hc
    subst hc
    decide
  have hcomps := traverse_no_git_components "/" tree hwf hroot
  have hmem : ∀ p ∈ traverseDir "/" tree,
      gitDirName ∉ pathComponents p ∧ p ≠ gitDirName := by
    intro p hp
    constructor
    · intro hg
      rcases List.mem_map.mp hg with ⟨comp, hcm, heq⟩
      exact (hcomps p hp comp hcm) heq
    · intro hpg
      subst hpg
      have hself : gitDirName.data ∈ splitSlash gitDirName.data := by decide
      exact (hcomps _ hp gitDirName.data hself) (strMk_data gitDirName)
  have hkeys : ∀ k c, (k, c) ∈ getStatusMap raw tree →
      k ∈ traverseDir "/" tree := by
    intro k c hk
    unfold getStatusMap at hk
    rcases List.mem_filterMap.mp hk with ⟨path, hpath, hf⟩
    rcases Option.map_eq_some'.mp hf with ⟨y, -, hy⟩
    cases hy
    exact hpath
  refine ⟨traverse_prune "/" tree, hmem, ?_⟩
  intro k c hk
  have hk' := hkeys k c hk
  exact ⟨hk', (hmem k hk').1, (hmem k hk').2⟩

/-- Witness for C6: a concrete tree holding `.git` entries both at the
root and nested (one a directory, one a file); its traversal avoids the
metadata name everywhere. -/
theorem metadata_subdir_skipped_witness :
    wfEntries
      [(".git", FsNode.dir [("HEAD", FsNode.file)]),
       ("a", FsNode.dir [(".git", FsNode.file), ("b", FsNode.file)]),
       ("c", FsNode.file)] = true ∧
    (∀ p ∈ traverseDir "/"
      [(".git", FsNode.dir [("HEAD", FsNode.file)]),
       ("a", FsNode.dir [(".git", FsNode.file), ("b", FsNode.file)]),
       ("c", FsNode.file)],
      gitDirName ∉ pathComponents p ∧ p ≠ gitDirName) := by
  have hwf : wfEntries
      [(".git", FsNode.dir [("HEAD", FsNode.file)]),
       ("a", FsNode.dir [(".git", FsNode.file), ("b", FsNode.file)]),
       ("c", FsNode.file)] = true := by
    simp only [wfEntries]
    decide
  exact ⟨hwf, (metadata_subdir_skipped [] _ hwf).2.1⟩

end Gitfs
